import Mathlib

/-!
Verification development for the viewer repository: a shallow embedding of
the coroutine registry (llcoros.h), the inventory result-set slicing
(llinventorylistener.cpp), the RLV chat dispatcher (rlvhandler.cpp), and the
filtered inventory collector, together with theorems settling the spec's
claims about them.
-/

namespace Viewer

/-! Groundwork: the decimal rendering of a natural number (used by the
coroutine name generator, which appends an integer to a caller-supplied
name stub) is injective.  We prove this by a digits round trip on the core
function Nat.toDigitsCore. -/

/-- Numeric value of a decimal digit character. -/
def digitVal (c : Char) : Nat := c.toNat - 48

/-- Decimal value of a character list, with accumulator. -/
def decValAux (a : Nat) (l : List Char) : Nat :=
  l.foldl (fun a c => 10 * a + digitVal c) a

theorem digitVal_digitChar : ∀ d, d < 10 → digitVal (Nat.digitChar d) = d := by
  decide

theorem toDigitsCore_shift (fuel : Nat) :
    ∀ (n : Nat) (ds : List Char),
      Nat.toDigitsCore 10 fuel n ds = Nat.toDigitsCore 10 fuel n [] ++ ds := by
  induction fuel with
  | zero => intro n ds; simp [Nat.toDigitsCore]
  | succ f ih =>
    intro n ds
    simp only [Nat.toDigitsCore]
    by_cases h : n / 10 = 0
    · simp [h]
    · simp only [if_neg h]
      rw [ih (n / 10) (Nat.digitChar (n % 10) :: ds),
          ih (n / 10) [Nat.digitChar (n % 10)]]
      simp

theorem toDigitsCore_fuel :
    ∀ (n f₁ f₂ : Nat), n < f₁ → n < f₂ → ∀ ds,
      Nat.toDigitsCore 10 f₁ n ds = Nat.toDigitsCore 10 f₂ n ds := by
  intro n
  induction n using Nat.strong_induction_on with
  | _ n ih =>
    intro f₁ f₂ h₁ h₂ ds
    match f₁, h₁ with
    | g₁ + 1, h₁ =>
      match f₂, h₂ with
      | g₂ + 1, h₂ =>
        simp only [Nat.toDigitsCore]
        by_cases h : n / 10 = 0
        · simp [h]
        · simp only [if_neg h]
          have hn10 : n / 10 < n := Nat.div_lt_self (Nat.pos_of_ne_zero (by
            intro hz; rw [hz] at h; simp at h)) (by omega)
          exact ih (n / 10) hn10 g₁ g₂ (by omega) (by omega) _

theorem decValAux_toDigits : ∀ n, decValAux 0 (Nat.toDigits 10 n) = n := by
  intro n
  induction n using Nat.strong_induction_on with
  | _ n ih =>
    unfold Nat.toDigits
    simp only [Nat.toDigitsCore]
    by_cases h : n / 10 = 0
    · have hlt : n < 10 := by omega
      simp only [if_pos h, decValAux, List.foldl]
      rw [digitVal_digitChar (n % 10) (Nat.mod_lt n (by omega))]
      omega
    · simp only [if_neg h]
      have hpos : 0 < n := by
        by_contra hz
        push_neg at hz
        interval_cases n
        simp at h
      have hn10 : n / 10 < n := Nat.div_lt_self hpos (by omega)
      rw [toDigitsCore_shift]
      rw [toDigitsCore_fuel (n / 10) n (n / 10 + 1) hn10 (Nat.lt_succ_self _)]
      have hrec : decValAux 0 (Nat.toDigits 10 (n / 10)) = n / 10 := ih (n / 10) hn10
      unfold Nat.toDigits at hrec
      simp only [decValAux] at hrec ⊢
      rw [List.foldl_append, hrec]
      simp only [List.foldl]
      rw [digitVal_digitChar (n % 10) (Nat.mod_lt n (by omega))]
      omega

theorem natRepr_injective : Function.Injective Nat.repr := by
  intro m n h
  have hdata : Nat.toDigits 10 m = Nat.toDigits 10 n := by
    have := congrArg String.data h
    simpa [Nat.repr, List.asString] using this
  have hm := decValAux_toDigits m
  have hn := decValAux_toDigits n
  rw [hdata] at hm
  omega

theorem string_data_append (s t : String) : (s ++ t).data = s.data ++ t.data := by
  cases s with
  | mk ds =>
    cases t with
    | mk dt => rfl

theorem string_append_left_cancel {s a b : String} (h : s ++ a = s ++ b) : a = b := by
  have hd : (s ++ a).data = (s ++ b).data := congrArg String.data h
  rw [string_data_append, string_data_append] at hd
  have : a.data = b.data := List.append_cancel_left hd
  cases a; cases b
  exact congrArg String.mk this

/-! Embedding of the C++ exception class hierarchy declared in llcoros.h
(lines 262-295): struct Stop derives from LLContinueError, and Killed,
Stopping, Stopped, Shutdown each derive from Stop.  A C++ catch clause for
class H catches a thrown object of class T exactly when T derives
(reflexively, transitively) from H. -/

inductive CxxClass
  | LLContinueError
  | Stop
  | Killed
  | Stopping
  | Stopped
  | Shutdown
  deriving DecidableEq, Repr

/-- Direct base class of each exception type, read off the declarations in
llcoros.h: Stop is public LLContinueError; Killed, Stopping, Stopped and
Shutdown are each public Stop. -/
def directBase : CxxClass → Option CxxClass
  | .LLContinueError => none
  | .Stop => some .LLContinueError
  | .Killed => some .Stop
  | .Stopping => some .Stop
  | .Stopped => some .Stop
  | .Shutdown => some .Stop

/-- Ancestor chain of a class (itself first), following directBase; fuel
bounds the chain length by the number of classes. -/
def ancestorsAux : Nat → Option CxxClass → List CxxClass
  | 0, _ => []
  | _, none => []
  | f + 1, some c => c :: ancestorsAux f (directBase c)

def ancestors (c : CxxClass) : List CxxClass := ancestorsAux 6 (some c)

/-- A catch clause for handler class h catches a thrown object of dynamic
class t when t is h or derives from h. -/
def catches (h t : CxxClass) : Bool := (ancestors t).contains h

/-! Embedding of the LLCoros registry (llcoros.h).  The header declares the
interface and data members; the method bodies live in llcoros.cpp, which is
not part of this repository, so the operational definitions below are
modelled from the spec where so noted. -/

/-- The four cooperative stop interrupt kinds (llcoros.h Killed, Stopping,
Stopped, Shutdown). -/
inductive StopKind
  | killed
  | stopping
  | stopped
  | shutdown
  deriving DecidableEq, Repr

/-- Exceptions observable in the model: a typed stop interrupt, or an
opaque non-stop exception identified by its what-string. -/
inductive Exn
  | stop (k : StopKind) (what : String)
  | other (what : String)
  deriving DecidableEq, Repr

def Exn.isStop : Exn → Bool
  | .stop _ _ => true
  | .other _ => false

/-- Modelled from the spec: the global teardown phase of the cooperative
cancellation protocol (spec 4.4), entered monotonically by application
teardown; llcoros.cpp, which tracks it, is not in this repository. -/
inductive Phase
  | running
  | stopping
  | stopped
  | shutdown
  deriving DecidableEq, Repr

/-- The stop interrupt kind called for by a global phase, if any. -/
def stopKindForPhase : Phase → Option StopKind
  | .running => none
  | .stopping => some .stopping
  | .stopped => some .stopped
  | .shutdown => some .shutdown

/-- One step of a coroutine body in the model: perform an observable side
effect (tagged by a number), or suspend at a suspension point. -/
inductive Step
  | effect (tag : Nat)
  | suspend
  deriving DecidableEq, Repr

/-- How a coroutine body ends once all its steps have run: return normally,
or raise an exception. -/
inductive Outcome
  | ret
  | raise (e : Exn)
  deriving DecidableEq, Repr

/-- A coroutine body in the model: a list of steps, then an outcome. -/
structure Body where
  steps : List Step
  outcome : Outcome
  deriving DecidableEq, Repr

/-- The per-coroutine record, mirroring LLCoros::CoroData in llcoros.h
(lines 372-386); pending is the model's handle on the not-yet-run remainder
of the body of a suspended coroutine. -/
structure CoroData where
  mName : String
  mConsuming : Bool := false
  mKilledBy : String := ""
  mStatus : String := ""
  pending : Body
  deriving DecidableEq, Repr

/-- Mirrors LLCoros::ExceptionData in llcoros.h (lines 356-366). -/
structure ExceptionData where
  name : String
  exception : Exn
  deriving DecidableEq, Repr

/-- The registry state: the live coroutine records (LLInstanceTracker keyed
by name), the exception queue (mExceptionQueue), the name generator's
running counter, the global phase, and a log of side effects performed so
far, in order. -/
structure LLCorosState where
  coros : List CoroData
  mExceptionQueue : List ExceptionData
  counter : Nat
  phase : Phase
  log : List Nat
  deriving DecidableEq, Repr

/-- Whether a coroutine record with the given name is currently live. -/
def isLiveName (s : LLCorosState) (nm : String) : Bool :=
  s.coros.any (fun c => c.mName == nm)

/-- The tweaked name built from a caller-supplied stub and an integer
disambiguator, per the spec's name generator: the stub with the integer's
decimal rendering appended. -/
def coroName (pfx : String) (k : Nat) : String := pfx ++ Nat.repr k

/-- Modelled from the spec: LLCoros::generateDistinctName (declared at
llcoros.h line 348, body in llcoros.cpp which is not in this repository)
picks the smallest integer k at or above the registry's running counter
such that the stub with k appended is not a live record name.  Searching
the window of length coros.length + 1 starting at the counter always
succeeds, since live names are fewer than the candidates. -/
def generateDistinctName (s : LLCorosState) (pfx : String) : Nat :=
  ((List.range' s.counter (s.coros.length + 1)).find?
    (fun k => !isLiveName s (coroName pfx k))).getD (s.counter + s.coros.length + 1)

/-- Run a list of body steps, appending performed effects to the log, until
the first suspension point (returning the remaining steps) or completion
(returning none). -/
def runSteps : List Step → List Nat → List Nat × Option (List Step)
  | [], log => (log, none)
  | .effect t :: rest, log => runSteps rest (log ++ [t])
  | .suspend :: rest, log => (log, some rest)

/-- Modelled from the spec: the coroutine top-level wrapper's treatment of a
completed body (LLCoros::toplevel, llcoros.h line 349, body not in this
repository).  The record is reclaimed; a non-stop exception is appended to
the exception queue; a stop interrupt is discarded (intentional
termination). -/
def finishOutcome (s : LLCorosState) (nm : String) (o : Outcome) : LLCorosState :=
  let s1 := { s with coros := s.coros.filter (fun c => c.mName ≠ nm) }
  match o with
  | .ret => s1
  | .raise e =>
    if e.isStop then s1
    else { s1 with mExceptionQueue := s1.mExceptionQueue ++ [⟨nm, e⟩] }

/-- Modelled from the spec: LLCoros::launch (llcoros.h line 154, body not in
this repository) generates a distinct name, registers a new record, bumps
the running counter past the used integer, runs the body synchronously up to
its first suspension point or completion, and returns the tweaked name. -/
def launch (s : LLCorosState) (pfx : String) (body : Body) : LLCorosState × String :=
  let k := generateDistinctName s pfx
  let nm := coroName pfx k
  let s1 : LLCorosState :=
    { s with counter := k + 1,
             coros := s.coros ++ [{ mName := nm, pending := body }] }
  let lr := runSteps body.steps s1.log
  let s2 := { s1 with log := lr.1 }
  match lr.2 with
  | some r =>
    ({ s2 with coros := s2.coros.map (fun c =>
        if c.mName = nm then { c with pending := { body with steps := r } } else c) }, nm)
  | none => (finishOutcome s2 nm body.outcome, nm)

/-- Modelled from the spec: the scheduler resuming a suspended coroutine,
which continues its remaining steps up to the next suspension point or
completion. -/
def resume (s : LLCorosState) (nm : String) : LLCorosState :=
  match s.coros.find? (fun c => c.mName == nm) with
  | none => s
  | some c =>
    let lr := runSteps c.pending.steps s.log
    let s2 := { s with log := lr.1 }
    match lr.2 with
    | some r =>
      { s2 with coros := s2.coros.map (fun d =>
          if d.mName = nm then { d with pending := { d.pending with steps := r } } else d) }
    | none => finishOutcome s2 nm c.pending.outcome

/-- Modelled from the spec: LLCoros::rethrow (llcoros.h line 184, body not
in this repository) pops and re-raises the oldest queued exception, and is a
no-op when the queue is empty.  The raised exception is returned as the
second component. -/
def rethrow (s : LLCorosState) : LLCorosState × Option Exn :=
  match s.mExceptionQueue with
  | [] => (s, none)
  | d :: rest => ({ s with mExceptionQueue := rest }, some d.exception)

/-- Modelled from the spec: LLCoros::killreq (llcoros.h line 163, body not
in this repository) marks the named record's killed-by field with the caller
and returns whether a live record was found; it never force-terminates. -/
def killreq (s : LLCorosState) (nm caller : String) : LLCorosState × Bool :=
  if isLiveName s nm then
    ({ s with coros := s.coros.map (fun c =>
        if c.mName = nm then { c with mKilledBy := caller } else c) }, true)
  else (s, false)

/-- The stop condition checkStop sees: the coroutine's own kill flag first
(a non-empty killed-by string calls for Killed, carrying the requester),
else whatever the global phase calls for. -/
def stopConditionFor (killedBy : String) (ph : Phase) : Option Exn :=
  if killedBy ≠ "" then some (.stop .killed killedBy)
  else match stopKindForPhase ph with
       | some k => some (.stop k "viewer teardown")
       | none => none

/-- Modelled from the spec: LLCoros::checkStop (llcoros.h line 303, body not
in this repository).  A cleanup callable is modelled by the effects it
performs plus the exception it raises, if any.  When the stop condition
holds, the cleanup (if supplied) runs first -- its effects are emitted --
and then the typed stop interrupt is raised, unless the cleanup itself
raised, in which case the cleanup's exception propagates instead. -/
def checkStop (killedBy : String) (ph : Phase) (cleanup : Option (List Nat × Option Exn)) :
    List Nat × Except Exn Unit :=
  match stopConditionFor killedBy ph with
  | none => ([], .ok ())
  | some stopExn =>
    match cleanup with
    | none => ([], .error stopExn)
    | some (effs, none) => (effs, .error stopExn)
    | some (effs, some e) => (effs, .error e)

/-- LLCoros::getStatus, reading the fiber-local status string (the record's
mStatus field). -/
def getStatus (mStatus : String) : String := mStatus

/-- LLCoros::setStatus, replacing the fiber-local status string. -/
def setStatus (status _mStatus : String) : String := status

/-- Embedding of the LLCoros::TempStatus guard (llcoros.h lines 244-260)
around a scope: the constructor saves getStatus() into mOldStatus and calls
setStatus(status); the body then runs in the updated status state and may
itself end in an exception; the destructor calls setStatus(mOldStatus) on
every exit path, including exception unwind. -/
def withTempStatus {α E : Type} (status : String)
    (body : String → String × Except E α) (st : String) : String × Except E α :=
  let mOldStatus := getStatus st
  let st1 := setStatus status st
  let br := body st1
  (setStatus mOldStatus br.1, br.2)

/-- Operations a client of the registry may perform in any order: launch a
coroutine, resume a suspended one, request a kill, or drain one queued
exception on the main fiber. -/
inductive Op
  | launch (pfx : String) (body : Body)
  | resume (nm : String)
  | kill (nm caller : String)
  | drain
  deriving DecidableEq, Repr

/-- Run a sequence of operations from a state, collecting for each launch
the pair of its name stub and the tweaked name it returned, in order. -/
def runTrace : LLCorosState → List Op → LLCorosState × List (String × String)
  | s, [] => (s, [])
  | s, .launch pfx body :: rest =>
    let ln := launch s pfx body
    let out := runTrace ln.1 rest
    (out.1, (pfx, ln.2) :: out.2)
  | s, .resume nm :: rest => runTrace (resume s nm) rest
  | s, .kill nm caller :: rest => runTrace (killreq s nm caller).1 rest
  | s, .drain :: rest => runTrace (rethrow s).1 rest

/-- Repeatedly call rethrow until it reports an empty queue, collecting the
re-raised exceptions in order. -/
def drainAllAux : Nat → LLCorosState → List Exn
  | 0, _ => []
  | f + 1, s =>
    match (rethrow s).2 with
    | none => []
    | some e => e :: drainAllAux f (rethrow s).1

def drainAll (s : LLCorosState) : List Exn :=
  drainAllAux s.mExceptionQueue.length s

/-- The effects a body performs before its first suspension point. -/
def effectsBeforeSuspend (steps : List Step) : List Nat :=
  (steps.takeWhile (fun st => st ≠ .suspend)).filterMap
    (fun st => match st with | .effect t => some t | .suspend => none)

/-! Embedding of InvResultSet::getSlice (llinventorylistener.cpp lines
136-160).  The result set is a list; the returned LLSD array is a list of
optional entries, none standing for an undefined LLSD slot.  llclamp is the
viewer's clamping helper; MAX_ITEM_LIMIT is 100 (line 37). -/

def llclamp (a minv maxv : Int) : Int :=
  if a < minv then minv else if a > maxv then maxv else a

def MAX_ITEM_LIMIT : Int := 100

/-- InvResultSet::getSingle for a concrete result set held as a list; the
code indexes the backing array directly once bounds are established. -/
def getSingle {α : Type} [Inhabited α] (rs : List α) (i : Nat) : α :=
  rs.getD i default

/-- InvResultSet::getSlice: clamp the bounds; if the slice is non-empty,
pre-size the result array by assigning an undefined LLSD at position
end - 1 (which fills positions 0 .. end-1 with undefined), then assign
getSingle(i) at each position i in [start, end). -/
def getSlice {α : Type} [Inhabited α] (rs : List α) (index count : Int) :
    List (Option α) :=
  let length : Int := (rs.length : Int)
  let start := llclamp index 0 length
  let e := llclamp (index + llclamp count 0 MAX_ITEM_LIMIT) 0 length
  if e > start then
    let result0 : List (Option α) := List.replicate e.toNat none
    (List.range' start.toNat (e.toNat - start.toNat)).foldl
      (fun acc i => acc.set i (some (getSingle rs i))) result0
  else []

/-! Embedding of RlvHandler::handleSimulatorChat (rlvhandler.cpp lines
24-54).  The message is a character list; the chat type enum, the command
character, the settings cache, the per-command processor and the debug
output builder are collaborators declared outside this repository and enter
as parameters. -/

/-- Chat types from the viewer's chat header; the dispatcher only compares
against CHAT_TYPE_OWNER. -/
inductive EChatType
  | normal
  | whisper
  | shout
  | debugMsg
  | region
  | owner
  | direct
  deriving DecidableEq, Repr

/-- The fields of LLChat the dispatcher reads. -/
structure LLChatM where
  mChatType : EChatType
  deriving DecidableEq, Repr

/-- The field of LLViewerObject the dispatcher reads. -/
structure LLViewerObjectM where
  tempAttachment : Bool
  deriving DecidableEq, Repr

/-- The three cached settings the dispatcher reads. -/
structure RlvSettings where
  enableTempAttach : Bool
  showDebugOutput : Bool
  hideUnsetDupes : Bool
  deriving DecidableEq, Repr

/-- Command processing return codes from the RLV common header, as used in
rlvhandler.cpp. -/
inductive ECmdRet
  | success
  | successUnset
  | successDuplicate
  | failedSyntax
  | failedDisabled
  | failedParam
  | failedOption
  | unknown
  deriving DecidableEq, Repr

/-- The boost tokenizer over a comma separator with empty tokens dropped. -/
def splitTokens (l : List Char) : List (List Char) :=
  (l.splitOn ',').filter (fun t => t ≠ [])

/-- RlvHandler::handleSimulatorChat.  Returns the bool result paired with
the final contents of the by-reference message string.  procCmd stands for
processCommand (chat.mFromID is fixed per call, so it is pre-applied);
dbgGet stands for CommandDbgOut::get on the recorded additions, given the
message the CommandDbgOut was constructed with. -/
def handleSimulatorChat (cfg : RlvSettings) (cmdPfxChar : Char)
    (procCmd : List Char → ECmdRet)
    (dbgGet : List Char → List (List Char × ECmdRet) → List Char)
    (message : List Char) (chat : LLChatM) (chatObj : Option LLViewerObjectM) :
    Bool × List Char :=
  let headMismatch : Bool :=
    match message with | [] => true | c :: _ => cmdPfxChar != c
  let tempBlocked : Bool :=
    match chatObj with
    | some o => o.tempAttachment && !cfg.enableTempAttach
    | none => false
  if message.length ≤ 3 ∨ headMismatch ∨ chat.mChatType ≠ .owner ∨ tempBlocked
  then (false, message)
  else
    let m1 := message.drop 1
    let m2 := m1.map Char.toLower
    let adds := (splitTokens m2).foldl (fun acc strCmd =>
      let eRet := procCmd strCmd
      if cfg.showDebugOutput
         ∧ (¬ cfg.hideUnsetDupes
            ∨ (eRet ≠ .successUnset ∧ eRet ≠ .successDuplicate))
      then acc ++ [(strCmd, eRet)] else acc) []
    (true, dbgGet m2 adds)

/-! Embedding of LLFilteredCollector's item limit (llinventorylistener.cpp
lines 296-300 and 378-407). -/

/-- The constructor's computation of mItemLimit from the request's limit
field: when the field is an integer n, the limit is max(n, 1); when the
field is absent or not an integer, mItemLimit keeps its initial value 0,
which means unlimited.  The field is modelled as an optional integer, none
standing for absent-or-not-integer. -/
def mItemLimitOf (limitField : Option Int) : Int :=
  match limitField with
  | some n => max n 1
  | none => 0

/-- LLFilteredCollector::exceedsLimit: mItemLimit == 0 means unlimited;
otherwise the limit is exceeded once mItemCount has reached it. -/
def exceedsLimit (mItemLimit mItemCount : Int) : Bool :=
  mItemLimit ≠ 0 ∧ mItemLimit ≤ mItemCount

/-- Modelled from the spec: the descendant-collection loop of
LLInventoryModel::collectDescendentsIf (declared outside this repository),
which visits candidates in order, stops as soon as the collector reports
exceedsLimit, and otherwise applies the collector functor, which increments
mItemCount exactly when the candidate passes (llinventorylistener.cpp lines
409-420). -/
def collectLoop {α : Type} (passes : α → Bool) (limit : Int) :
    List α → Int → List α
  | [], _ => []
  | x :: xs, cnt =>
    if exceedsLimit limit cnt then []
    else if passes x then x :: collectLoop passes limit xs (cnt + 1)
    else collectLoop passes limit xs cnt

/-! Supporting lemmas. -/

/-- The steps remaining after the first suspension point, if any. -/
def suspRest : List Step → Option (List Step)
  | [] => none
  | .effect _ :: rest => suspRest rest
  | .suspend :: rest => some rest

theorem runSteps_eq : ∀ (steps : List Step) (log : List Nat),
    runSteps steps log = (log ++ effectsBeforeSuspend steps, suspRest steps) := by
  intro steps
  induction steps with
  | nil => intro log; simp [runSteps, effectsBeforeSuspend, suspRest]
  | cons st rest ih =>
    intro log
    cases st with
    | effect t =>
      simp only [runSteps, ih, suspRest, effectsBeforeSuspend, List.takeWhile]
      simp [List.filterMap]
    | suspend => simp [runSteps, effectsBeforeSuspend, suspRest, List.takeWhile]

theorem suspRest_none_iff : ∀ steps : List Step,
    suspRest steps = none ↔ Step.suspend ∉ steps := by
  intro steps
  induction steps with
  | nil => simp [suspRest]
  | cons st rest ih =>
    cases st with
    | effect t => simp [suspRest, ih]
    | suspend => simp [suspRest]

theorem effectsBeforeSuspend_all (steps : List Step) (h : Step.suspend ∉ steps) :
    effectsBeforeSuspend steps =
      steps.filterMap (fun st => match st with | .effect t => some t | .suspend => none) := by
  unfold effectsBeforeSuspend
  rw [List.takeWhile_eq_self_iff.mpr]
  intro st hst
  simp only [ne_eq, decide_eq_true_eq]
  intro he
  exact h (he ▸ hst)

/-! Theorems settling the claims. -/

/-- Claim C5: each of Killed, Stopping, Stopped and Shutdown is caught by a
handler for the Stop family, and Stop itself (hence each of the four) is
caught by a handler for the non-crash continue-error category
LLContinueError, so no stop interrupt is ever treated as a hard crash. -/
theorem stop_family_non_crash :
    catches .Stop .Killed = true ∧ catches .Stop .Stopping = true ∧
    catches .Stop .Stopped = true ∧ catches .Stop .Shutdown = true ∧
    catches .LLContinueError .Stop = true ∧
    catches .LLContinueError .Killed = true ∧
    catches .LLContinueError .Stopping = true ∧
    catches .LLContinueError .Stopped = true ∧
    catches .LLContinueError .Shutdown = true := by
  decide

/-- Claim C6: a TempStatus guard built with status s over prior status p
runs its scope with getStatus returning s, restores getStatus to p when
destroyed on any exit path including exception results, and nested guards
restore in reverse order of construction (the inner guard restores the
outer guard's status, the outer guard restores p). -/
theorem tempStatus_scoped_restore {α E : Type} :
    ∀ (s p : String) (body : String → String × Except E α),
      withTempStatus s body p = (p, (body (getStatus (setStatus s p))).2)
      ∧ getStatus (setStatus s p) = s
      ∧ (∀ (st2 : String) (e : E), body s = (st2, .error e) →
          withTempStatus s body p = (p, .error e))
      ∧ (∀ (s₂ : String) (body₂ : String → String × Except E α),
          (withTempStatus s₂ body₂ (getStatus (setStatus s p))).1 = s
          ∧ (withTempStatus s (fun st => withTempStatus s₂ body₂ st) p).1 = p) := by
  intro s p body
  refine ⟨rfl, rfl, ?_, fun s₂ body₂ => ⟨rfl, rfl⟩⟩
  intro st2 e h
  simp [withTempStatus, getStatus, setStatus, h]

/-- Claim C6 witness: a concrete guard over prior status idle whose body
raises, restored to idle with the exception propagated. -/
theorem tempStatus_scoped_restore_witness :
    withTempStatus "loading"
      (fun _ => ("busy", (Except.error "boom" : Except String Unit)))
      ("idle" : String) = ("idle", Except.error "boom") :=
  (tempStatus_scoped_restore (α := Unit) (E := String) "loading" "idle"
      (fun _ => ("busy", Except.error "boom"))).2.2.1 "busy" "boom" rfl

/-- Claim C3: whenever checkStop runs under a kill flag or a global stop
phase (a stop condition holds), a supplied cleanup runs first -- its
effects are emitted -- and then the typed stop interrupt corresponding to
the condition is raised; if the cleanup itself raises, the cleanup's
exception propagates instead of the stop interrupt; the kill flag yields
the Killed interrupt carrying the requester. -/
theorem checkStop_cleanup_first :
    ∀ (killedBy : String) (ph : Phase) (effs : List Nat) (e : Exn) (stopExn : Exn),
      stopConditionFor killedBy ph = some stopExn →
      checkStop killedBy ph (some (effs, none)) = (effs, .error stopExn)
      ∧ checkStop killedBy ph (some (effs, some e)) = (effs, .error e)
      ∧ checkStop killedBy ph none = ([], .error stopExn)
      ∧ (killedBy ≠ "" → stopExn = .stop .killed killedBy) := by
  intro killedBy ph effs e stopExn h
  refine ⟨by simp [checkStop, h], by simp [checkStop, h], by simp [checkStop, h], ?_⟩
  intro hk
  simp only [stopConditionFor, if_pos hk] at h
  exact (Option.some_injective _ h).symm

/-- Claim C3 witness: a coroutine killed by main, with a cleanup that
performs effect 5 and then with a cleanup that raises boom. -/
theorem checkStop_cleanup_first_witness :
    checkStop "main" .running (some ([5], none))
        = ([5], .error (.stop .killed "main"))
    ∧ checkStop "main" .running (some ([5], some (.other "boom")))
        = ([5], .error (.other "boom")) :=
  ⟨(checkStop_cleanup_first "main" .running [5] (.other "boom")
      (.stop .killed "main") rfl).1,
   (checkStop_cleanup_first "main" .running [5] (.other "boom")
      (.stop .killed "main") rfl).2.1⟩

/-- The record registered by launch for the generated name. -/
def newRecord (pfx : String) (k : Nat) (body : Body) : CoroData :=
  { mName := coroName pfx k, pending := body }

theorem launch_eq_suspended (s : LLCorosState) (pfx : String) (body : Body)
    (r : List Step) (h : suspRest body.steps = some r) :
    launch s pfx body =
      (let k := generateDistinctName s pfx
       let nm := coroName pfx k
       ({ s with counter := k + 1,
                 log := s.log ++ effectsBeforeSuspend body.steps,
                 coros := (s.coros ++ [newRecord pfx k body]).map (fun c =>
                   if c.mName = nm then { c with pending := { body with steps := r } }
                   else c) }, nm)) := by
  simp only [launch, runSteps_eq, h, newRecord]

theorem launch_eq_completed (s : LLCorosState) (pfx : String) (body : Body)
    (h : suspRest body.steps = none) :
    launch s pfx body =
      (let k := generateDistinctName s pfx
       (finishOutcome
          { s with counter := k + 1,
                   log := s.log ++ effectsBeforeSuspend body.steps,
                   coros := s.coros ++ [newRecord pfx k body] }
          (coroName pfx k) body.outcome, coroName pfx k)) := by
  simp only [launch, runSteps_eq, h, newRecord]

theorem finishOutcome_coros (s : LLCorosState) (nm : String) (o : Outcome) :
    (finishOutcome s nm o).coros = s.coros.filter (fun c => c.mName ≠ nm) := by
  unfold finishOutcome
  cases o with
  | ret => rfl
  | raise e => by_cases he : e.isStop <;> simp [he]

theorem finishOutcome_log (s : LLCorosState) (nm : String) (o : Outcome) :
    (finishOutcome s nm o).log = s.log := by
  unfold finishOutcome
  cases o with
  | ret => rfl
  | raise e => by_cases he : e.isStop <;> simp [he]

theorem finishOutcome_counter (s : LLCorosState) (nm : String) (o : Outcome) :
    (finishOutcome s nm o).counter = s.counter := by
  unfold finishOutcome
  cases o with
  | ret => rfl
  | raise e => by_cases he : e.isStop <;> simp [he]

theorem launch_log (s : LLCorosState) (pfx : String) (body : Body) :
    (launch s pfx body).1.log = s.log ++ effectsBeforeSuspend body.steps := by
  cases h : suspRest body.steps with
  | some r => rw [launch_eq_suspended s pfx body r h]
  | none => rw [launch_eq_completed s pfx body h]; simp [finishOutcome_log]

theorem launch_name (s : LLCorosState) (pfx : String) (body : Body) :
    (launch s pfx body).2 = coroName pfx (generateDistinctName s pfx) := by
  cases h : suspRest body.steps with
  | some r => rw [launch_eq_suspended s pfx body r h]
  | none => rw [launch_eq_completed s pfx body h]

theorem launch_counter (s : LLCorosState) (pfx : String) (body : Body) :
    (launch s pfx body).1.counter = generateDistinctName s pfx + 1 := by
  cases h : suspRest body.steps with
  | some r => rw [launch_eq_suspended s pfx body r h]
  | none => rw [launch_eq_completed s pfx body h]; simp [finishOutcome_counter]

/-- Claim C7: launch runs the new coroutine synchronously on the calling
thread up to its first suspension point or completion before returning, so
when the caller receives the name, the log has grown by exactly the body's
effects preceding its first suspension; a body with no suspension point has
run to completion (its record is already reclaimed when launch returns). -/
theorem launch_runs_synchronously :
    ∀ (s : LLCorosState) (pfx : String) (body : Body),
      (launch s pfx body).1.log = s.log ++ effectsBeforeSuspend body.steps
      ∧ (Step.suspend ∉ body.steps →
          effectsBeforeSuspend body.steps =
            body.steps.filterMap
              (fun st => match st with | .effect t => some t | .suspend => none)
          ∧ ∀ c ∈ (launch s pfx body).1.coros, c.mName ≠ (launch s pfx body).2) := by
  intro s pfx body
  refine ⟨launch_log s pfx body, fun hns => ⟨effectsBeforeSuspend_all body.steps hns, ?_⟩⟩
  have h : suspRest body.steps = none := (suspRest_none_iff body.steps).mpr hns
  intro c hc
  rw [launch_eq_completed s pfx body h] at hc ⊢
  simp only [finishOutcome_coros, List.mem_filter] at hc
  simpa using hc.2

/-- Claim C7 witness: launching a body of two effects and no suspension
performs both effects before launch returns, and the completed record is
already reclaimed. -/
theorem launch_runs_synchronously_witness :
    (launch ⟨[], [], 0, .running, []⟩ "job"
        ⟨[Step.effect 1, Step.effect 2], .ret⟩).1.log
      = [] ++ effectsBeforeSuspend [Step.effect 1, Step.effect 2]
    ∧ ∀ c ∈ (launch ⟨[], [], 0, .running, []⟩ "job"
        ⟨[Step.effect 1, Step.effect 2], .ret⟩).1.coros,
        c.mName ≠ (launch ⟨[], [], 0, .running, []⟩ "job"
          ⟨[Step.effect 1, Step.effect 2], .ret⟩).2 :=
  ⟨(launch_runs_synchronously ⟨[], [], 0, .running, []⟩ "job"
      ⟨[Step.effect 1, Step.effect 2], .ret⟩).1,
   ((launch_runs_synchronously ⟨[], [], 0, .running, []⟩ "job"
      ⟨[Step.effect 1, Step.effect 2], .ret⟩).2 (by decide)).2⟩

theorem isLiveName_iff (s : LLCorosState) (nm : String) :
    isLiveName s nm = true ↔ ∃ c ∈ s.coros, c.mName = nm := by
  simp [isLiveName, List.any_eq_true]

theorem finishOutcome_queue_raise (s : LLCorosState) (nm w : String) :
    (finishOutcome s nm (.raise (.other w))).mExceptionQueue
      = s.mExceptionQueue ++ [⟨nm, .other w⟩] := by
  simp [finishOutcome, Exn.isStop]

theorem drainAllAux_queue :
    ∀ (q : List ExceptionData) (s : LLCorosState), s.mExceptionQueue = q →
      drainAllAux q.length s = q.map (fun d => d.exception) := by
  intro q
  induction q with
  | nil => intro s hq; simp [drainAllAux]
  | cons d rest ih =>
    intro s hq
    have hr : rethrow s = ({ s with mExceptionQueue := rest }, some d.exception) := by
      simp [rethrow, hq]
    simp only [List.length_cons, drainAllAux, hr, List.map_cons]
    exact congrArg _ (ih _ rfl)

/-- Claim C2: a coroutine body raising a non-stop exception never surfaces
it at the launch call site (launch returns the name normally); the
exception is appended at the back of the registry's exception queue --
whether the body completes during launch or later upon resume -- and
successive rethrow calls on the main fiber re-raise queued exceptions in
strict FIFO order, rethrow being a no-op on an empty queue. -/
theorem exceptions_relay_fifo :
    ∀ (s : LLCorosState) (pfx w : String) (steps : List Step),
      Step.suspend ∉ steps →
      ((launch s pfx ⟨steps, .raise (.other w)⟩).1.mExceptionQueue
        = s.mExceptionQueue ++ [⟨(launch s pfx ⟨steps, .raise (.other w)⟩).2, .other w⟩])
      ∧ (∀ c : CoroData, s.coros.find? (fun d => d.mName == c.mName) = some c →
          c.pending = ⟨steps, .raise (.other w)⟩ →
          (resume s c.mName).mExceptionQueue = s.mExceptionQueue ++ [⟨c.mName, .other w⟩])
      ∧ (s.mExceptionQueue = [] → rethrow s = (s, none))
      ∧ (∀ d rest, s.mExceptionQueue = d :: rest →
          rethrow s = ({ s with mExceptionQueue := rest }, some d.exception))
      ∧ drainAll s = s.mExceptionQueue.map (fun d => d.exception) := by
  intro s pfx w steps hns
  have hsr : suspRest steps = none := (suspRest_none_iff steps).mpr hns
  refine ⟨?_, ?_, ?_, ?_, drainAllAux_queue s.mExceptionQueue s rfl⟩
  · rw [launch_name s pfx ⟨steps, .raise (.other w)⟩,
        launch_eq_completed s pfx ⟨steps, .raise (.other w)⟩ hsr]
    simp [finishOutcome_queue_raise]
  · intro c hfind hpend
    unfold resume
    rw [hfind]
    simp only [hpend, runSteps_eq, hsr]
    exact finishOutcome_queue_raise _ c.mName w
  · intro hq; simp [rethrow, hq]
  · intro d rest hq; simp [rethrow, hq]

/-- Claim C2 witness: launching a body that raises boom before suspending
from an empty registry queues exactly that exception, and one rethrow
re-raises it. -/
theorem exceptions_relay_fifo_witness :
    (launch ⟨[], [], 0, .running, []⟩ "fetch"
        ⟨[Step.effect 1], .raise (.other "boom")⟩).1.mExceptionQueue
      = [] ++ [⟨(launch ⟨[], [], 0, .running, []⟩ "fetch"
          ⟨[Step.effect 1], .raise (.other "boom")⟩).2, .other "boom"⟩] :=
  (exceptions_relay_fifo ⟨[], [], 0, .running, []⟩ "fetch" "boom"
    [Step.effect 1] (by decide)).1

theorem killreq_pos (s : LLCorosState) (nm caller : String)
    (h : isLiveName s nm = true) :
    killreq s nm caller =
      ({ s with coros := s.coros.map (fun c =>
          if c.mName = nm then { c with mKilledBy := caller } else c) }, true) := by
  simp [killreq, h]

theorem killreq_neg (s : LLCorosState) (nm caller : String)
    (h : isLiveName s nm = false) :
    killreq s nm caller = (s, false) := by
  simp [killreq, h]

/-- Claim C4: killreq returns true exactly when a live record with the
given name exists; a false return leaves the state untouched; a true
return changes nothing but the named record's killed-by field (in
particular no record is force-terminated: stripping the killed-by field
yields the same records); the named live record exists afterwards with
killed-by set to the caller, and for a non-empty caller the next checkStop
inside that coroutine raises the Killed interrupt under every phase. -/
theorem killreq_marks_kill :
    ∀ (s : LLCorosState) (nm caller : String),
      ((killreq s nm caller).2 = true ↔ isLiveName s nm = true)
      ∧ ((killreq s nm caller).2 = false → (killreq s nm caller).1 = s)
      ∧ ((killreq s nm caller).1.coros.map (fun c => { c with mKilledBy := "" })
          = s.coros.map (fun c => { c with mKilledBy := "" }))
      ∧ ((killreq s nm caller).1.mExceptionQueue = s.mExceptionQueue
         ∧ (killreq s nm caller).1.counter = s.counter
         ∧ (killreq s nm caller).1.phase = s.phase
         ∧ (killreq s nm caller).1.log = s.log)
      ∧ ((killreq s nm caller).2 = true →
          ∃ c ∈ (killreq s nm caller).1.coros, c.mName = nm)
      ∧ (caller ≠ "" →
          ∀ c ∈ (killreq s nm caller).1.coros, c.mName = nm →
            c.mKilledBy = caller
            ∧ ∀ ph : Phase,
                checkStop c.mKilledBy ph none = ([], .error (.stop .killed caller))) := by
  intro s nm caller
  by_cases hlive : isLiveName s nm = true
  · rw [killreq_pos s nm caller hlive]
    refine ⟨by simp [hlive], by simp, ?_, ⟨rfl, rfl, rfl, rfl⟩, ?_, ?_⟩
    · rw [List.map_map]
      refine List.map_congr_left ?_
      intro c _
      by_cases hcn : c.mName = nm <;> simp [hcn]
    · intro _
      rcases (isLiveName_iff s nm).mp hlive with ⟨c, hc, hcn⟩
      refine ⟨{ c with mKilledBy := caller }, ?_, hcn⟩
      have he : (fun c => if c.mName = nm then { c with mKilledBy := caller } else c) c
          = { c with mKilledBy := caller } := by simp [hcn]
      exact he ▸ List.mem_map_of_mem _ hc
    · intro hcaller c hc hcn
      rcases List.mem_map.mp hc with ⟨a, _, rfl⟩
      by_cases han : a.mName = nm
      · simp only [if_pos han]
        refine ⟨by trivial, ?_⟩
        intro ph
        simp [checkStop, stopConditionFor, hcaller]
      · simp only [if_neg han] at hcn ⊢
        exact absurd hcn han
  · rw [killreq_neg s nm caller (by simpa using hlive)]
    refine ⟨by simp [hlive], fun _ => rfl, rfl, ⟨rfl, rfl, rfl, rfl⟩, by simp, ?_⟩
    intro hcaller c hc hcn
    exact absurd ((isLiveName_iff s nm).mpr ⟨c, hc, hcn⟩) hlive

/-- Claim C4 witness: killing the live coroutine worker5 from main
succeeds, and the next checkStop in worker5 raises Killed. -/
theorem killreq_marks_kill_witness :
    (killreq ⟨[⟨"worker5", false, "", "", ⟨[], .ret⟩⟩], [], 6, .running, []⟩
        "worker5" "main").2 = true
    ∧ ∀ c ∈ (killreq ⟨[⟨"worker5", false, "", "", ⟨[], .ret⟩⟩], [], 6, .running, []⟩
        "worker5" "main").1.coros, c.mName = "worker5" →
        c.mKilledBy = "main"
        ∧ ∀ ph : Phase,
            checkStop c.mKilledBy ph none = ([], .error (.stop .killed "main")) :=
  ⟨((killreq_marks_kill ⟨[⟨"worker5", false, "", "", ⟨[], .ret⟩⟩], [], 6, .running, []⟩
      "worker5" "main").1).mpr (by decide),
   (killreq_marks_kill ⟨[⟨"worker5", false, "", "", ⟨[], .ret⟩⟩], [], 6, .running, []⟩
      "worker5" "main").2.2.2.2.2 (by decide)⟩

theorem coroName_right_injective (pfx : String) :
    Function.Injective (coroName pfx) := by
  intro k₁ k₂ h
  unfold coroName at h
  exact natRepr_injective (string_append_left_cancel h)

theorem generateDistinctName_fresh (s : LLCorosState) (pfx : String) :
    isLiveName s (coroName pfx (generateDistinctName s pfx)) = false
    ∧ s.counter ≤ generateDistinctName s pfx := by
  have hex : ∃ k, k ∈ List.range' s.counter (s.coros.length + 1)
      ∧ (!isLiveName s (coroName pfx k)) = true := by
    by_contra hall
    push_neg at hall
    have hsub : (List.range' s.counter (s.coros.length + 1)).map (coroName pfx)
        ⊆ s.coros.map (fun c => c.mName) := by
      intro x hx
      rcases List.mem_map.mp hx with ⟨k, hk, rfl⟩
      have hlive : isLiveName s (coroName pfx k) = true := by
        have := hall k hk
        simpa using this
      rcases (isLiveName_iff s _).mp hlive with ⟨c, hc, hcn⟩
      exact List.mem_map.mpr ⟨c, hc, hcn⟩
    have hnd : ((List.range' s.counter (s.coros.length + 1)).map (coroName pfx)).Nodup :=
      (List.nodup_range' _ _).map (coroName_right_injective pfx)
    have hle := (hnd.subperm hsub).length_le
    simp only [List.length_map, List.length_range'] at hle
    omega
  have hsome : ((List.range' s.counter (s.coros.length + 1)).find?
      (fun k => !isLiveName s (coroName pfx k))).isSome := by
    rw [List.find?_isSome]
    exact hex
  rcases Option.isSome_iff_exists.mp hsome with ⟨k, hk⟩
  have hgen : generateDistinctName s pfx = k := by
    unfold generateDistinctName
    rw [hk]
    rfl
  have hp := List.find?_some hk
  have hmem := List.mem_of_find?_eq_some hk
  rcases List.mem_range'.mp hmem with ⟨i, _, hi⟩
  constructor
  · rw [hgen]
    simpa using hp
  · rw [hgen]
    omega

theorem resume_counter (s : LLCorosState) (nm : String) :
    (resume s nm).counter = s.counter := by
  unfold resume
  cases hf : s.coros.find? (fun c => c.mName == nm) with
  | none => rfl
  | some c =>
    simp only [runSteps_eq]
    cases hs : suspRest c.pending.steps with
    | some r => rfl
    | none => simp [finishOutcome_counter]

theorem killreq_counter (s : LLCorosState) (nm caller : String) :
    (killreq s nm caller).1.counter = s.counter := by
  by_cases hlive : isLiveName s nm = true
  · rw [killreq_pos s nm caller hlive]
  · rw [killreq_neg s nm caller (by simpa using hlive)]

theorem rethrow_counter (s : LLCorosState) :
    (rethrow s).1.counter = s.counter := by
  unfold rethrow
  cases s.mExceptionQueue <;> rfl

theorem runTrace_mem_key :
    ∀ (ops : List Op) (s : LLCorosState) (q : String × String),
      q ∈ (runTrace s ops).2 → ∃ k, q.2 = coroName q.1 k ∧ s.counter ≤ k := by
  intro ops
  induction ops with
  | nil => intro s q hq; simp [runTrace] at hq
  | cons op rest ih =>
    intro s q hq
    cases op with
    | launch pfx body =>
      simp only [runTrace, List.mem_cons] at hq
      rcases hq with rfl | hq
      · exact ⟨generateDistinctName s pfx, launch_name s pfx body,
          (generateDistinctName_fresh s pfx).2⟩
      · rcases ih _ q hq with ⟨k, hk, hle⟩
        refine ⟨k, hk, ?_⟩
        have h1 := launch_counter s pfx body
        have h2 := (generateDistinctName_fresh s pfx).2
        omega
    | resume nm =>
      simp only [runTrace] at hq
      rcases ih _ q hq with ⟨k, hk, hle⟩
      exact ⟨k, hk, by rw [← resume_counter s nm]; exact hle⟩
    | kill nm caller =>
      simp only [runTrace] at hq
      rcases ih _ q hq with ⟨k, hk, hle⟩
      exact ⟨k, hk, by rw [← killreq_counter s nm caller]; exact hle⟩
    | drain =>
      simp only [runTrace] at hq
      rcases ih _ q hq with ⟨k, hk, hle⟩
      exact ⟨k, hk, by rw [← rethrow_counter s]; exact hle⟩

theorem runTrace_names_nodup :
    ∀ (ops : List Op) (s : LLCorosState) (pfx : String),
      (((runTrace s ops).2.filter (fun q => q.1 == pfx)).map (fun q => q.2)).Nodup := by
  intro ops
  induction ops with
  | nil => intro s pfx; simp [runTrace]
  | cons op rest ih =>
    intro s pfx
    cases op with
    | launch pfx' body =>
      simp only [runTrace]
      by_cases hp : (pfx' == pfx) = true
      · have hfil : List.filter (fun q => q.1 == pfx)
            ((pfx', (launch s pfx' body).2) :: (runTrace (launch s pfx' body).1 rest).2)
            = (pfx', (launch s pfx' body).2)
              :: List.filter (fun q => q.1 == pfx) (runTrace (launch s pfx' body).1 rest).2 := by
          simp [List.filter_cons, hp]
        rw [hfil]
        simp only [List.map_cons, List.nodup_cons]
        refine ⟨?_, ih _ pfx⟩
        intro hmem
        rcases List.mem_map.mp hmem with ⟨q, hqf, hq2⟩
        have hqmem := (List.mem_filter.mp hqf).1
        have hq1 : (q.1 == pfx) = true := (List.mem_filter.mp hqf).2
        have hpe : pfx' = pfx := by simpa using hp
        subst hpe
        rcases runTrace_mem_key rest _ q hqmem with ⟨k, hk, hle⟩
        rw [launch_counter s pfx' body] at hle
        have hq1e : q.1 = pfx' := by simpa using hq1
        rw [hk, hq1e, launch_name s pfx' body] at hq2
        have := coroName_right_injective pfx' hq2
        omega
      · have hfil : List.filter (fun q => q.1 == pfx)
            ((pfx', (launch s pfx' body).2) :: (runTrace (launch s pfx' body).1 rest).2)
            = List.filter (fun q => q.1 == pfx) (runTrace (launch s pfx' body).1 rest).2 := by
          simp [List.filter_cons, hp]
        rw [hfil]
        exact ih _ pfx
    | resume nm => simp only [runTrace]; exact ih _ pfx
    | kill nm caller => simp only [runTrace]; exact ih _ pfx
    | drain => simp only [runTrace]; exact ih _ pfx

/-- Claim C1: across any sequence of registry operations, the tweaked
names returned by the launch calls sharing any given name stub are
pairwise distinct (the generator's integers start at the running counter
and never repeat), and the name generated for a launch never equals the
name of any concurrently-live coroutine record. -/
theorem launch_names_distinct :
    ∀ (s₀ : LLCorosState) (ops : List Op) (pfx : String),
      (((runTrace s₀ ops).2.filter (fun q => q.1 == pfx)).map (fun q => q.2)).Nodup
      ∧ ∀ (s : LLCorosState) (stub : String),
          isLiveName s (coroName stub (generateDistinctName s stub)) = false :=
  fun s₀ ops pfx => ⟨runTrace_names_nodup ops s₀ pfx,
    fun s stub => (generateDistinctName_fresh s stub).1⟩

theorem foldl_set_length {β : Type} (g : Nat → β) :
    ∀ (is : List Nat) (l : List β),
      (is.foldl (fun acc i => acc.set i (g i)) l).length = l.length := by
  intro is
  induction is with
  | nil => intro l; rfl
  | cons i rest ih => intro l; rw [List.foldl_cons, ih, List.length_set]

theorem foldl_set_getElem? {β : Type} (g : Nat → β) :
    ∀ (cnt startN : Nat) (l : List β) (j : Nat),
      ((List.range' startN cnt).foldl (fun acc i => acc.set i (g i)) l)[j]? =
        if startN ≤ j ∧ j < startN + cnt ∧ j < l.length then some (g j) else l[j]? := by
  intro cnt
  induction cnt with
  | zero =>
    intro startN l j
    rw [show List.range' startN 0 = [] from rfl, List.foldl_nil, if_neg (by omega)]
  | succ n ih =>
    intro startN l j
    rw [List.range'_succ, List.foldl_cons, ih]
    rw [List.length_set, List.getElem?_set]
    by_cases h1 : startN + 1 ≤ j ∧ j < startN + 1 + n ∧ j < l.length
    · rw [if_pos h1, if_pos (by omega)]
    · rw [if_neg h1]
      by_cases h2 : startN ≤ j ∧ j < startN + (n + 1) ∧ j < l.length
      · rw [if_pos h2]
        have hj : startN = j := by omega
        subst hj
        rw [if_pos rfl, if_pos (by omega)]
      · rw [if_neg h2]
        by_cases hj : startN = j
        · subst hj
          rw [if_pos rfl, if_neg (by omega)]
          exact (List.getElem?_eq_none (by omega)).symm
        · rw [if_neg hj]

/-- Claim C8: getSlice computes start = clamp(index, 0, L) and
end = clamp(index + clamp(count, 0, 100), 0, L); it returns the empty
array when end is not greater than start, and otherwise an array of
length end whose entries at positions start through end - 1 hold
getSingle(i) while positions before start stay unassigned; at most 100
entries are ever populated. -/
theorem getSlice_spec {α : Type} [Inhabited α] :
    ∀ (rs : List α) (index count : Int),
      (llclamp (index + llclamp count 0 100) 0 (rs.length : Int)
          ≤ llclamp index 0 (rs.length : Int) →
        getSlice rs index count = [])
      ∧ (llclamp (index + llclamp count 0 100) 0 (rs.length : Int)
          > llclamp index 0 (rs.length : Int) →
        (getSlice rs index count).length
            = (llclamp (index + llclamp count 0 100) 0 (rs.length : Int)).toNat
        ∧ ∀ j : Nat, (getSlice rs index count)[j]? =
            if j < (llclamp (index + llclamp count 0 100) 0 (rs.length : Int)).toNat then
              (if (llclamp index 0 (rs.length : Int)).toNat ≤ j
               then some (some (getSingle rs j)) else some none)
            else none)
      ∧ llclamp (index + llclamp count 0 100) 0 (rs.length : Int)
          - llclamp index 0 (rs.length : Int) ≤ 100 := by
  intro rs index count
  have hL : (0 : Int) ≤ (rs.length : Int) := Int.natCast_nonneg _
  have hstart : llclamp index 0 (rs.length : Int) = max 0 (min index (rs.length : Int)) := by
    unfold llclamp; split_ifs <;> omega
  have hcnt : llclamp count 0 100 = max 0 (min count 100) := by
    unfold llclamp; split_ifs <;> omega
  have hend : llclamp (index + llclamp count 0 100) 0 (rs.length : Int)
      = max 0 (min (index + llclamp count 0 100) (rs.length : Int)) := by
    unfold llclamp; split_ifs <;> omega
  refine ⟨?_, ?_, by rw [hstart, hend, hcnt]; omega⟩
  · intro h
    unfold getSlice MAX_ITEM_LIMIT
    rw [if_neg (by omega)]
  · intro h
    unfold getSlice MAX_ITEM_LIMIT
    rw [if_pos (by omega)]
    constructor
    · rw [foldl_set_length, List.length_replicate]
    · intro j
      rw [foldl_set_getElem?]
      rw [List.length_replicate, List.getElem?_replicate]
      have hse : (llclamp index 0 (rs.length : Int)).toNat
          ≤ (llclamp (index + llclamp count 0 100) 0 (rs.length : Int)).toNat := by
        rw [hstart, hend]; omega
      by_cases hj : j < (llclamp (index + llclamp count 0 100) 0 (rs.length : Int)).toNat
      · by_cases hjs : (llclamp index 0 (rs.length : Int)).toNat ≤ j
        · rw [if_pos (show (llclamp index 0 (rs.length : Int)).toNat ≤ j
              ∧ j < (llclamp index 0 (rs.length : Int)).toNat
                  + ((llclamp (index + llclamp count 0 100) 0 (rs.length : Int)).toNat
                    - (llclamp index 0 (rs.length : Int)).toNat)
              ∧ j < (llclamp (index + llclamp count 0 100) 0 (rs.length : Int)).toNat
              from by omega)]
          rw [if_pos hj, if_pos hjs]
        · rw [if_neg (by omega), if_pos hj, if_pos hj, if_neg hjs]
      · rw [if_neg (by omega), if_neg hj, if_neg hj]

/-- Claim C8 witness: on a five-entry result set, getSlice(-2, 5) clamps
to start 0 and end 3, and getSlice(2, 2) populates position 2 with the
third entry while leaving position 0 unassigned. -/
theorem getSlice_spec_witness :
    (getSlice ([10, 20, 30, 40, 50] : List Int) (-2) 5).length = 3
    ∧ (getSlice ([10, 20, 30, 40, 50] : List Int) 2 2)[2]? = some (some 30)
    ∧ (getSlice ([10, 20, 30, 40, 50] : List Int) 2 2)[0]? = some none := by
  refine ⟨?_, ?_, ?_⟩
  · rw [((getSlice_spec ([10, 20, 30, 40, 50] : List Int) (-2) 5).2.1 (by decide)).1]
    decide
  · rw [((getSlice_spec ([10, 20, 30, 40, 50] : List Int) 2 2).2.1 (by decide)).2 2]
    decide
  · rw [((getSlice_spec ([10, 20, 30, 40, 50] : List Int) 2 2).2.1 (by decide)).2 0]
    decide

/-- Claim C9: handleSimulatorChat returns false with the message left
unchanged whenever the message is at most 3 characters long, or its first
character is not the command character, or the chat type is not owner
chat, or the sending object is a temporary attachment while
temporary-attachment support is off; and on every execution that returns
false the message is unchanged, so the message is mutated only on
executions that return true. -/
theorem handleSimulatorChat_guard :
    ∀ (cfg : RlvSettings) (cmdPfxChar : Char) (procCmd : List Char → ECmdRet)
      (dbgGet : List Char → List (List Char × ECmdRet) → List Char)
      (message : List Char) (chat : LLChatM) (chatObj : Option LLViewerObjectM),
      ((message.length ≤ 3
        ∨ (∀ c rest, message = c :: rest → cmdPfxChar ≠ c)
        ∨ chat.mChatType ≠ .owner
        ∨ (∃ o, chatObj = some o ∧ o.tempAttachment = true
              ∧ cfg.enableTempAttach = false)) →
        handleSimulatorChat cfg cmdPfxChar procCmd dbgGet message chat chatObj
          = (false, message))
      ∧ ((handleSimulatorChat cfg cmdPfxChar procCmd dbgGet message chat chatObj).1
            = false →
          (handleSimulatorChat cfg cmdPfxChar procCmd dbgGet message chat chatObj).2
            = message) := by
  intro cfg cmdPfxChar procCmd dbgGet message chat chatObj
  constructor
  · intro hcond
    simp only [handleSimulatorChat]
    split
    · rfl
    · exfalso
      rename_i hg
      push_neg at hg
      obtain ⟨h1, h2, h3, h4⟩ := hg
      rcases hcond with hlen | hhead | htype | hobj
      · omega
      · cases message with
        | nil => simp at h1
        | cons c rest =>
          have hne : cmdPfxChar ≠ c := hhead c rest rfl
          simp only [bne_iff_ne, ne_eq] at h2
          exact h2 hne
      · exact htype h3
      · rcases hobj with ⟨o, hco, hta, hen⟩
        subst hco
        simp [hta, hen] at h4
  · simp only [handleSimulatorChat]
    split
    · intro _; rfl
    · intro hfalse
      simp at hfalse

/-- Claim C9 witness: a two-character message is rejected with the message
unchanged, via the length guard. -/
theorem handleSimulatorChat_guard_witness :
    handleSimulatorChat ⟨true, true, true⟩ '@' (fun _ => .success) (fun m _ => m)
      ['h', 'i'] ⟨.owner⟩ none = (false, ['h', 'i']) :=
  (handleSimulatorChat_guard ⟨true, true, true⟩ '@' (fun _ => .success)
    (fun m _ => m) ['h', 'i'] ⟨.owner⟩ none).1 (Or.inl (by decide))

theorem collectLoop_unlimited {α : Type} (passes : α → Bool) :
    ∀ (xs : List α) (cnt : Int), collectLoop passes 0 xs cnt = xs.filter passes := by
  intro xs
  induction xs with
  | nil => intro cnt; simp [collectLoop]
  | cons x xs ih =>
    intro cnt
    have hex : exceedsLimit 0 cnt = false := by simp [exceedsLimit]
    rw [List.filter_cons]
    by_cases hp : passes x = true
    · simp [collectLoop, hex, hp, ih]
    · simp [collectLoop, hex, hp, ih]

theorem collectLoop_limited {α : Type} (passes : α → Bool) (limit : Int)
    (hl : 1 ≤ limit) :
    ∀ (xs : List α) (cnt : Int), 0 ≤ cnt → cnt ≤ limit →
      (collectLoop passes limit xs cnt).length
        = min (xs.filter passes).length (limit - cnt).toNat := by
  intro xs
  induction xs with
  | nil => intro cnt h0 h1; simp [collectLoop]
  | cons x xs ih =>
    intro cnt h0 h1
    by_cases hex : exceedsLimit limit cnt = true
    · have hle : limit ≤ cnt := by
        simp [exceedsLimit] at hex
        exact hex.2
      have hz : (limit - cnt).toNat = 0 := by omega
      simp [collectLoop, hex, hz]
    · have hlt : cnt < limit := by
        simp [exceedsLimit] at hex
        have := hex (by omega)
        omega
      have hexf : exceedsLimit limit cnt = false := by simpa using hex
      rw [List.filter_cons]
      by_cases hp : passes x = true
      · have hrec := ih (cnt + 1) (by omega) (by omega)
        rw [show collectLoop passes limit (x :: xs) cnt
            = x :: collectLoop passes limit xs (cnt + 1) from by
          simp [collectLoop, hexf, hp]]
        rw [List.length_cons, hrec, if_pos hp, List.length_cons]
        omega
      · have hrec := ih cnt h0 h1
        have hpf : passes x = false := by simpa using hp
        rw [show collectLoop passes limit (x :: xs) cnt
            = collectLoop passes limit xs cnt from by
          simp [collectLoop, hexf, hpf]]
        rw [hrec, if_neg (by simp [hpf])]

/-- Claim C10: the filtered collector's effective item limit for an
integer limit field n is max(n, 1) -- so 0 or a negative request behaves
as limit 1, not unlimited -- collection stops once the count of passed
items reaches that limit, and collection is unlimited exactly when the
limit field is absent or not an integer (mItemLimit 0). -/
theorem collectDescendants_limit :
    ∀ (n : Int),
      mItemLimitOf (some n) = max n 1
      ∧ (n ≤ 0 → mItemLimitOf (some n) = 1)
      ∧ mItemLimitOf none = 0
      ∧ (∀ cnt, exceedsLimit (mItemLimitOf none) cnt = false)
      ∧ (∀ (α : Type) (xs : List α) (passes : α → Bool),
          collectLoop passes (mItemLimitOf none) xs 0 = xs.filter passes
          ∧ (collectLoop passes (mItemLimitOf (some n)) xs 0).length
              = min (xs.filter passes).length (max n 1).toNat) := by
  intro n
  refine ⟨rfl, ?_, rfl, ?_, ?_⟩
  · intro hn
    simp only [mItemLimitOf]
    omega
  · intro cnt
    simp [mItemLimitOf, exceedsLimit]
  · intro α xs passes
    refine ⟨collectLoop_unlimited passes xs 0, ?_⟩
    have h := collectLoop_limited passes (max n 1) (by omega) xs 0 (by omega) (by omega)
    simpa using h

/-- Claim C10 witness: a requested limit of 0 behaves as limit 1 -- with
three passing candidates, exactly one item is collected. -/
theorem collectDescendants_limit_witness :
    mItemLimitOf (some 0) = 1
    ∧ (collectLoop (fun _ => true) (mItemLimitOf (some 0))
        ([1, 2, 3] : List Int) 0).length = 1 := by
  refine ⟨(collectDescendants_limit 0).2.1 (by omega), ?_⟩
  rw [((collectDescendants_limit 0).2.2.2.2 Int [1, 2, 3] (fun _ => true)).2]
  decide

end Viewer
